import Mathlib

/-!
Verification of the encode → encrypt → chunk-transmit → fidelity-gate →
reconstruct → decode pipeline and the job-status streaming consumer of the
superdense-coding frontend (FullSimulation.jsx, Receiver.jsx).

The binary codec works on JavaScript strings; we embed those bit strings as
`List Char`.  The cipher/chunk layer only ever handles strings of '0'/'1'
characters, which we embed as `List Bool`.  JavaScript numbers are embedded
as `ℚ` (the coordinate arithmetic stays well inside the exactly-representable
range of float64 at the 1e-5 scale used by the code) and `ℕ`/`ℤ`.
-/

/-- JavaScript `Math.round`: round half toward positive infinity. -/
def jsRound (x : ℚ) : ℤ := ⌊x + 1/2⌋

/-- Binary digits of a natural number, least significant digit first; `[]` for 0.
These are exactly the digits produced by JavaScript `Number.prototype.toString(2)`. -/
def natToBinAux (n : ℕ) : List Char :=
  if h : n = 0 then []
  else (if n % 2 = 1 then '1' else '0') :: natToBinAux (n / 2)
termination_by n
decreasing_by exact Nat.div_lt_self (Nat.pos_of_ne_zero h) (by norm_num)

/-- JavaScript `n.toString(2)` for a natural number: most significant digit
first, and `"0"` for zero. -/
def natToBinChars (n : ℕ) : List Char :=
  if n = 0 then ['0'] else (natToBinAux n).reverse

/-- JavaScript `i.toString(2)` for an integer: a leading minus sign for
negative values. -/
def intToBinChars (i : ℤ) : List Char :=
  if i < 0 then '-' :: natToBinChars i.natAbs else natToBinChars i.toNat

/-- JavaScript `String.prototype.padStart(len, c)`: pad on the left up to
`len`; a string already at least `len` long is returned unchanged (never
truncated). -/
def padStartChars (s : List Char) (len : ℕ) (c : Char) : List Char :=
  List.replicate (len - s.length) c ++ s

/-- `floatToBinary` from FullSimulation.jsx (called only at its default
width `bits = 32`): `Math.round((value + 180) * 100000).toString(2).padStart(32, '0')`. -/
def floatToBinary (value : ℚ) : List Char :=
  padStartChars (intToBinChars (jsRound ((value + 180) * 100000))) 32 '0'

/-- The longest prefix of binary digit characters, as consumed by
JavaScript `parseInt(s, 2)`. -/
def takeBinPrefix : List Char → List Char
  | [] => []
  | c :: rest => if c = '0' ∨ c = '1' then c :: takeBinPrefix rest else []

/-- Numeric value of a list of binary digit characters, most significant first. -/
def digitsVal (s : List Char) : ℕ :=
  s.foldl (fun a c => 2 * a + (if c = '1' then 1 else 0)) 0

/-- JavaScript `parseInt(s, 2)` on the strings this code produces (binary
digits with an optional leading minus sign); `none` models `NaN`. -/
def parseIntBin (s : List Char) : Option ℤ :=
  if s.head? = some '-' then
    if (takeBinPrefix s.tail).isEmpty then none
    else some (-(digitsVal (takeBinPrefix s.tail) : ℤ))
  else
    if (takeBinPrefix s).isEmpty then none
    else some ((digitsVal (takeBinPrefix s) : ℤ))

/-- `binaryToFloat` from FullSimulation.jsx: `parseInt(bin, 2) / 100000 - 180`;
`none` models both the `null` returned for an empty string and a `NaN` parse. -/
def binaryToFloat (bin : List Char) : Option ℚ :=
  if bin.isEmpty then none
  else
    match parseIntBin bin with
    | none => none
    | some i => some ((i : ℚ) / 100000 - 180)

/-- The record produced by `binaryToLatLon`: latitude, longitude (null when
not recoverable) and the restricted-area flag rendered as "Yes"/"No". -/
structure GeoRecord where
  lat : Option ℚ
  lon : Option ℚ
  restricted : Option String
deriving DecidableEq

/-- `binaryToLatLon` from FullSimulation.jsx: guard on the empty string,
restricted bit at index 64 (defaulting to '0' when absent), early return with
null lat/lon below 65 bits, otherwise slices `[0:32)` and `[32:64)`. -/
def binaryToLatLon (binary : List Char) : GeoRecord :=
  if binary.length < 1 then { lat := none, lon := none, restricted := none }
  else
    let restrictedBit := if 65 ≤ binary.length then binary.getD 64 '0' else '0'
    let restricted := if restrictedBit = '1' then "Yes" else "No"
    if binary.length < 65 then { lat := none, lon := none, restricted := some restricted }
    else
      { lat := binaryToFloat (binary.take 32),
        lon := binaryToFloat ((binary.drop 32).take 32),
        restricted := some restricted }

/-- The 65-bit record encoding assembled in `handleRunFullSimulation`:
`floatToBinary(lat) ++ floatToBinary(lon) ++ (restricted ? "1" : "0")`. -/
def encodeRecord (lat lon : ℚ) (restricted : Bool) : List Char :=
  floatToBinary lat ++ floatToBinary lon ++ [if restricted then '1' else '0']

/-! Lemmas about the binary digit representation. -/

/-- Value of a digit list read least significant digit first. -/
def lsbVal (s : List Char) : ℕ := s.foldr (fun c a => 2 * a + (if c = '1' then 1 else 0)) 0

theorem lsbVal_natToBinAux (n : ℕ) : lsbVal (natToBinAux n) = n := by
  induction n using natToBinAux.induct with
  | case1 => rw [natToBinAux]; simp [lsbVal]
  | case2 n h ih =>
    rw [natToBinAux, dif_neg h]
    show 2 * lsbVal (natToBinAux (n / 2)) + _ = n
    rw [ih]
    rcases Nat.mod_two_eq_zero_or_one n with h2 | h2 <;> simp [h2] <;> omega

theorem digitsVal_reverse (s : List Char) : digitsVal s.reverse = lsbVal s := by
  rw [digitsVal, List.foldl_reverse]; rfl

theorem digitsVal_natToBinChars (n : ℕ) : digitsVal (natToBinChars n) = n := by
  rw [natToBinChars]
  split
  · simp [digitsVal, *]
  · rw [digitsVal_reverse, lsbVal_natToBinAux]

theorem natToBinAux_digits (n : ℕ) : ∀ c ∈ natToBinAux n, c = '0' ∨ c = '1' := by
  induction n using natToBinAux.induct with
  | case1 => rw [natToBinAux]; simp
  | case2 n h ih =>
    rw [natToBinAux, dif_neg h]
    intro c hc
    rcases List.mem_cons.mp hc with hc | hc
    · subst hc; split <;> simp
    · exact ih c hc

theorem natToBinChars_digits (n : ℕ) : ∀ c ∈ natToBinChars n, c = '0' ∨ c = '1' := by
  rw [natToBinChars]
  split
  · simp
  · intro c hc
    exact natToBinAux_digits n c (List.mem_reverse.mp hc)

theorem natToBinChars_ne_nil (n : ℕ) : natToBinChars n ≠ [] := by
  rw [natToBinChars]
  split
  · simp
  · rw [natToBinAux, dif_neg (by assumption)]
    simp

theorem natToBinAux_length_le (k : ℕ) : ∀ n, n < 2 ^ k → (natToBinAux n).length ≤ k := by
  induction k with
  | zero =>
    intro n hn
    interval_cases n
    rw [natToBinAux]; simp
  | succ k ih =>
    intro n hn
    by_cases h : n = 0
    · subst h; rw [natToBinAux]; simp
    · rw [natToBinAux, dif_neg h]
      have hdiv : n / 2 < 2 ^ k := by
        have : n < 2 ^ k * 2 := by rw [← pow_succ]; exact hn
        omega
      have := ih (n / 2) hdiv
      simp only [List.length_cons]
      omega

theorem natToBinAux_length_gt (k : ℕ) : ∀ n, 2 ^ k ≤ n → k < (natToBinAux n).length := by
  induction k with
  | zero =>
    intro n hn
    have h : n ≠ 0 := by omega
    rw [natToBinAux, dif_neg h]
    simp
  | succ k ih =>
    intro n hn
    have h : n ≠ 0 := by
      have : 0 < 2 ^ (k + 1) := Nat.pos_pow_of_pos _ (by norm_num)
      omega
    rw [natToBinAux, dif_neg h]
    have hdiv : 2 ^ k ≤ n / 2 := by
      have h2 : 2 ^ k * 2 ≤ n := by rw [← pow_succ]; exact hn
      omega
    have := ih (n / 2) hdiv
    simp only [List.length_cons]
    omega

theorem natToBinChars_length_le {n k : ℕ} (hn : n < 2 ^ k) (hk : 1 ≤ k) :
    (natToBinChars n).length ≤ k := by
  rw [natToBinChars]
  split
  · simpa using hk
  · rw [List.length_reverse]
    exact natToBinAux_length_le k n hn

theorem natToBinChars_length_gt {n k : ℕ} (hn : 2 ^ k ≤ n) :
    k < (natToBinChars n).length := by
  rw [natToBinChars]
  split
  · have : 0 < 2 ^ k := Nat.pos_pow_of_pos _ (by norm_num)
    omega
  · rw [List.length_reverse]
    exact natToBinAux_length_gt k n hn

theorem padStartChars_length (s : List Char) (len : ℕ) (c : Char) :
    (padStartChars s len c).length = max len s.length := by
  rw [padStartChars]
  simp [List.length_append]
  omega

theorem takeBinPrefix_all {s : List Char} (h : ∀ c ∈ s, c = '0' ∨ c = '1') :
    takeBinPrefix s = s := by
  induction s with
  | nil => rfl
  | cons c rest ih =>
    rw [takeBinPrefix]
    rw [if_pos (h c (List.mem_cons_self c rest))]
    rw [ih (fun x hx => h x (List.mem_cons_of_mem c hx))]

theorem parseIntBin_digits {s : List Char} (hne : s ≠ [])
    (h : ∀ c ∈ s, c = '0' ∨ c = '1') :
    parseIntBin s = some ((digitsVal s : ℤ)) := by
  rw [parseIntBin]
  have hhead : s.head? ≠ some '-' := by
    cases s with
    | nil => simp
    | cons c rest =>
      rcases h c (List.mem_cons_self c rest) with hc | hc <;> subst hc <;> simp
  rw [if_neg hhead, takeBinPrefix_all h]
  rw [if_neg (by simpa using hne)]

theorem digitsVal_replicate_zero_append (m : ℕ) (s : List Char) :
    digitsVal (List.replicate m '0' ++ s) = digitsVal s := by
  induction m with
  | zero => simp
  | succ m ih =>
    rw [List.replicate_succ, List.cons_append]
    show digitsVal (List.replicate m '0' ++ s) = digitsVal s
    exact ih

theorem padStartChars_digits {s : List Char} (h : ∀ c ∈ s, c = '0' ∨ c = '1')
    (len : ℕ) : ∀ c ∈ padStartChars s len '0', c = '0' ∨ c = '1' := by
  intro c hc
  rw [padStartChars] at hc
  rcases List.mem_append.mp hc with hc | hc
  · left; exact List.eq_of_mem_replicate hc
  · exact h c hc

/-- The 32-character field produced for an in-range scaled value: all binary
digits, length exactly 32, and the value parses back. -/
theorem field32_length {m : ℕ} (hm : m < 2 ^ 32) :
    (padStartChars (natToBinChars m) 32 '0').length = 32 := by
  rw [padStartChars_length]
  have := natToBinChars_length_le hm (by norm_num)
  omega

theorem field32_digits (m : ℕ) :
    ∀ c ∈ padStartChars (natToBinChars m) 32 '0', c = '0' ∨ c = '1' :=
  padStartChars_digits (natToBinChars_digits m) 32

theorem field32_val (m : ℕ) :
    digitsVal (padStartChars (natToBinChars m) 32 '0') = m := by
  rw [padStartChars, digitsVal_replicate_zero_append, digitsVal_natToBinChars]

theorem field32_ne_nil (m : ℕ) : padStartChars (natToBinChars m) 32 '0' ≠ [] := by
  rw [padStartChars]
  intro h
  rcases List.append_eq_nil.mp h with ⟨-, h2⟩
  exact natToBinChars_ne_nil m h2

theorem binaryToFloat_field32 {m : ℕ} :
    binaryToFloat (padStartChars (natToBinChars m) 32 '0') = some ((m : ℚ) / 100000 - 180) := by
  rw [binaryToFloat]
  rw [if_neg (by simpa using field32_ne_nil m)]
  rw [parseIntBin_digits (field32_ne_nil m) (field32_digits m), field32_val]
  norm_num

/-- Scaling of an exactly-representable coordinate: for `value = k / 100000`,
the scaled integer computed by `floatToBinary` is `k + 18000000`. -/
theorem jsRound_scale (k : ℤ) :
    jsRound (((k : ℚ) / 100000 + 180) * 100000) = k + 18000000 := by
  have h : (((k : ℚ) / 100000 + 180) * 100000) = ((k + 18000000 : ℤ) : ℚ) := by
    push_cast
    field_simp
    norm_num
  rw [jsRound, h, Int.floor_int_add]
  norm_num

theorem floatToBinary_of_int (k : ℤ) (h0 : 0 ≤ k + 18000000) :
    floatToBinary ((k : ℚ) / 100000)
      = padStartChars (natToBinChars (k + 18000000).toNat) 32 '0' := by
  rw [floatToBinary, jsRound_scale, intToBinChars, if_neg (by omega)]

theorem binaryToFloat_field32_int {k : ℤ} (h0 : 0 ≤ k) :
    binaryToFloat (padStartChars (natToBinChars k.toNat) 32 '0')
      = some ((k : ℚ) / 100000 - 180) := by
  rw [binaryToFloat_field32]
  have hk : ((k.toNat : ℚ)) = (k : ℚ) := by exact_mod_cast Int.toNat_of_nonneg h0
  rw [hk]

/-- Unfolding of `binaryToLatLon` on inputs of at least 65 bits. -/
theorem binaryToLatLon_long {binary : List Char} (h : 65 ≤ binary.length) :
    binaryToLatLon binary =
      { lat := binaryToFloat (binary.take 32),
        lon := binaryToFloat ((binary.drop 32).take 32),
        restricted := some (if binary.getD 64 '0' = '1' then "Yes" else "No") } := by
  rw [binaryToLatLon]
  simp only [if_neg (show ¬binary.length < 1 by omega), if_pos h,
    if_neg (show ¬binary.length < 65 by omega)]

/-- C8. Short-input decode: below 65 bits `binaryToLatLon` reports latitude and
longitude as unknown (`none`), with only the default restricted reading
available; at 65 bits or more it decodes bits [0:32) as latitude, [32:64) as
longitude and bit 64 as the restricted flag. -/
theorem C8_short_input_decode (binary : List Char) :
    (binary.length < 65 →
      (binaryToLatLon binary).lat = none ∧ (binaryToLatLon binary).lon = none) ∧
    (65 ≤ binary.length →
      binaryToLatLon binary =
        { lat := binaryToFloat (binary.take 32),
          lon := binaryToFloat ((binary.drop 32).take 32),
          restricted := some (if binary.getD 64 '0' = '1' then "Yes" else "No") }) := by
  constructor
  · intro h
    rw [binaryToLatLon]
    by_cases h1 : binary.length < 1
    · rw [if_pos h1]
      simp
    · rw [if_neg h1]
      simp [h]
  · exact binaryToLatLon_long

theorem C8_short_input_decode_witness :
    ((['0'] : List Char).length < 65) ∧
      (binaryToLatLon ['0']).lat = none ∧ (binaryToLatLon ['0']).lon = none :=
  ⟨by norm_num, (C8_short_input_decode ['0']).1 (by norm_num)⟩

/-- C1. Record round trip: a latitude/longitude pair representable at 1e-5
resolution in [-180, 180) together with a restricted flag decodes, after
`encodeRecord` then `binaryToLatLon`, to exactly the original coordinates
(hence within the claimed 1e-5) and the same restricted flag. -/
theorem C1_record_round_trip (ka kb : ℤ) (restricted : Bool)
    (ha1 : -18000000 ≤ ka) (ha2 : ka < 18000000)
    (hb1 : -18000000 ≤ kb) (hb2 : kb < 18000000) :
    (binaryToLatLon (encodeRecord ((ka : ℚ) / 100000) ((kb : ℚ) / 100000) restricted)).lat
        = some ((ka : ℚ) / 100000) ∧
    (binaryToLatLon (encodeRecord ((ka : ℚ) / 100000) ((kb : ℚ) / 100000) restricted)).lon
        = some ((kb : ℚ) / 100000) ∧
    (binaryToLatLon (encodeRecord ((ka : ℚ) / 100000) ((kb : ℚ) / 100000) restricted)).restricted
        = some (if restricted then "Yes" else "No") := by
  have hka0 : (0 : ℤ) ≤ ka + 18000000 := by omega
  have hkb0 : (0 : ℤ) ≤ kb + 18000000 := by omega
  have hma : (ka + 18000000).toNat < 2 ^ 32 := by
    have : (2 : ℕ) ^ 32 = 4294967296 := by norm_num
    omega
  have hmb : (kb + 18000000).toNat < 2 ^ 32 := by
    have : (2 : ℕ) ^ 32 = 4294967296 := by norm_num
    omega
  have hA : floatToBinary ((ka : ℚ) / 100000)
      = padStartChars (natToBinChars (ka + 18000000).toNat) 32 '0' :=
    floatToBinary_of_int ka hka0
  have hB : floatToBinary ((kb : ℚ) / 100000)
      = padStartChars (natToBinChars (kb + 18000000).toNat) 32 '0' :=
    floatToBinary_of_int kb hkb0
  have hAlen : (floatToBinary ((ka : ℚ) / 100000)).length = 32 := by
    rw [hA]; exact field32_length hma
  have hBlen : (floatToBinary ((kb : ℚ) / 100000)).length = 32 := by
    rw [hB]; exact field32_length hmb
  have hAval : binaryToFloat (floatToBinary ((ka : ℚ) / 100000)) = some ((ka : ℚ) / 100000) := by
    rw [hA, binaryToFloat_field32_int hka0]
    congr 1
    push_cast
    ring
  have hBval : binaryToFloat (floatToBinary ((kb : ℚ) / 100000)) = some ((kb : ℚ) / 100000) := by
    rw [hB, binaryToFloat_field32_int hkb0]
    congr 1
    push_cast
    ring
  set FA := floatToBinary ((ka : ℚ) / 100000) with hFA
  set FB := floatToBinary ((kb : ℚ) / 100000) with hFB
  set c := if restricted then '1' else '0' with hc
  have hE : encodeRecord ((ka : ℚ) / 100000) ((kb : ℚ) / 100000) restricted
      = FA ++ (FB ++ [c]) := by
    simp only [encodeRecord, List.append_assoc, hFA, hFB, hc]
  have hElen : (encodeRecord ((ka : ℚ) / 100000) ((kb : ℚ) / 100000) restricted).length = 65 := by
    rw [hE]; simp [hAlen, hBlen]
  have htake : (FA ++ (FB ++ [c])).take 32 = FA := by
    rw [List.take_append_of_le_length (by rw [hAlen]), ← hAlen, List.take_length]
  have hdrop : (FA ++ (FB ++ [c])).drop 32 = FB ++ [c] := by
    rw [List.drop_append_of_le_length (by rw [hAlen]), ← hAlen, List.drop_length,
      List.nil_append]
  have htake2 : (FB ++ [c]).take 32 = FB := by
    rw [List.take_append_of_le_length (by rw [hBlen]), ← hBlen, List.take_length]
  have hbit : (FA ++ (FB ++ [c])).getD 64 '0' = c := by
    rw [List.getD_append_right _ _ _ _ (by rw [hAlen]; norm_num), hAlen]
    rw [show (64 - 32 : ℕ) = 32 from rfl]
    rw [List.getD_append_right _ _ _ _ (by rw [hBlen]), hBlen]
    rfl
  rw [binaryToLatLon_long (by omega)]
  rw [hE, htake, hdrop, htake2, hbit]
  refine ⟨hAval, hBval, ?_⟩
  cases restricted <;> simp [hc]

theorem C1_record_round_trip_witness :
    (binaryToLatLon (encodeRecord (((1234567 : ℤ) : ℚ) / 100000)
        (((-9876543 : ℤ) : ℚ) / 100000) true)).lat = some (((1234567 : ℤ) : ℚ) / 100000) ∧
    (binaryToLatLon (encodeRecord (((1234567 : ℤ) : ℚ) / 100000)
        (((-9876543 : ℤ) : ℚ) / 100000) true)).lon = some (((-9876543 : ℤ) : ℚ) / 100000) ∧
    (binaryToLatLon (encodeRecord (((1234567 : ℤ) : ℚ) / 100000)
        (((-9876543 : ℤ) : ℚ) / 100000) true)).restricted = some "Yes" :=
  C1_record_round_trip 1234567 (-9876543) true (by norm_num) (by norm_num)
    (by norm_num) (by norm_num)

/-- The concrete scaled value used to exhibit the behaviour of `floatToBinary`
outside its 32-bit range: `Math.round((50000 + 180) * 100000) = 5018000000`. -/
theorem jsRound_at_50000 : jsRound (((50000 : ℚ) + 180) * 100000) = 5018000000 := by
  rw [jsRound]
  rw [show ((50000 : ℚ) + 180) * 100000 + 1/2 = (5018000000 : ℤ) + 1/2 by norm_num]
  rw [Int.floor_int_add]
  norm_num

/-- C6 counterexample: at input 50000 the scaled magnitude exceeds
`2^32 - 1`, and the output of `floatToBinary` is NOT a 32-character string
(it is the full, longer binary representation). -/
theorem C6_encode_overflow_counterexample :
    (2 : ℤ) ^ 32 - 1 < jsRound (((50000 : ℚ) + 180) * 100000) ∧
    (floatToBinary 50000).length ≠ 32 := by
  have h32 : (2 : ℤ) ^ 32 = 4294967296 := by norm_num
  constructor
  · rw [jsRound_at_50000]; omega
  · rw [floatToBinary]
    rw [show ((50000 : ℚ) + 180) * 100000 = (((50000 : ℚ)) + 180) * 100000 from rfl]
    rw [jsRound_at_50000]
    rw [intToBinChars, if_neg (by norm_num)]
    rw [show ((5018000000 : ℤ)).toNat = 5018000000 by rfl]
    have hgt : 32 < (natToBinChars 5018000000).length :=
      natToBinChars_length_gt (by norm_num)
    rw [padStartChars_length]
    omega

/-- C6 (amended). For every input whose scaled value exceeds `2^32 - 1`,
`floatToBinary` silently produces a LONGER bit string (the scaled value's full
binary representation, more than 32 characters): `padStart` never truncates,
so the output is neither an error nor a wrapped 32-character value. -/
theorem C6_encode_overflow_behaviour (value : ℚ)
    (h : (2 : ℤ) ^ 32 - 1 < jsRound ((value + 180) * 100000)) :
    32 < (floatToBinary value).length := by
  have h32 : (2 : ℤ) ^ 32 = 4294967296 := by norm_num
  rw [floatToBinary, intToBinChars, if_neg (by omega)]
  have htn : 2 ^ 32 ≤ (jsRound ((value + 180) * 100000)).toNat := by
    have h32n : (2 : ℕ) ^ 32 = 4294967296 := by norm_num
    omega
  have hgt := natToBinChars_length_gt htn
  rw [padStartChars_length]
  omega

theorem C6_encode_overflow_behaviour_witness :
    32 < (floatToBinary 50000).length :=
  C6_encode_overflow_behaviour 50000 (by rw [jsRound_at_50000]; norm_num)

/-!
One-time pad and chunking (OneTimePad / ChunkTransmitter).  These functions
only ever handle strings of '0'/'1' characters, embedded as `List Bool`.
-/

/-- `oneTimePadEncrypt` from FullSimulation.jsx: guard returning the input
when the key or the chunk is empty, otherwise XOR each position `i` against
`key[(keyOffset + i) % key.length]`. -/
def oneTimePadEncrypt (chunk key : List Bool) (keyOffset : ℕ) : List Bool :=
  if key.isEmpty ∨ chunk.isEmpty then chunk
  else (List.range chunk.length).map
    (fun i => Bool.xor (chunk.getD i false) (key.getD ((keyOffset + i) % key.length) false))

/-- `oneTimePadDecrypt` from FullSimulation.jsx: textually the same XOR loop
as `oneTimePadEncrypt`. -/
def oneTimePadDecrypt (encryptedChunk key : List Bool) (keyOffset : ℕ) : List Bool :=
  if key.isEmpty ∨ encryptedChunk.isEmpty then encryptedChunk
  else (List.range encryptedChunk.length).map
    (fun i => Bool.xor (encryptedChunk.getD i false) (key.getD ((keyOffset + i) % key.length) false))

theorem oneTimePadDecrypt_eq_encrypt :
    oneTimePadDecrypt = oneTimePadEncrypt := rfl

/-- The chunking loop of `processSuperdenseCoding`: successive 2-character
slices, the final one right-padded with '0' when the input length is odd. -/
def splitChunks : List Bool → List (List Bool)
  | [] => []
  | [b] => [[b, false]]
  | b1 :: b2 :: rest => [b1, b2] :: splitChunks rest

/-- The per-chunk encryption of `processSuperdenseCoding`:
`chunks.map((ch, idx) => oneTimePadEncrypt(ch, key, (idx*2) % key.length))`. -/
def encryptChunks (chunks : List (List Bool)) (key : List Bool) : List (List Bool) :=
  (List.range chunks.length).map
    (fun idx => oneTimePadEncrypt (chunks.getD idx []) key ((idx * 2) % key.length))

/-! Generic list access helpers. -/

theorem getD_range_map {α : Type} (f : ℕ → α) {n i : ℕ} (hi : i < n) (x : α) :
    ((List.range n).map f).getD i x = f i := by
  rw [List.getD_eq_getElem _ _ (by simpa using hi)]
  rw [List.getElem_map, List.getElem_range]

theorem getD_map_getD {α β : Type} (f : α → β) {l : List α} {i : ℕ} (hi : i < l.length)
    (x : β) (y : α) : (l.map f).getD i x = f (l.getD i y) := by
  rw [List.getD_eq_getElem _ _ (by simpa using hi), List.getD_eq_getElem _ _ hi]
  rw [List.getElem_map]

theorem ext_of_getD {α : Type} (x : α) {l1 l2 : List α} (hlen : l1.length = l2.length)
    (h : ∀ i, i < l1.length → l1.getD i x = l2.getD i x) : l1 = l2 := by
  refine List.ext_getElem hlen (fun i h1 h2 => ?_)
  have := h i h1
  rwa [List.getD_eq_getElem _ _ h1, List.getD_eq_getElem _ _ h2] at this

theorem length_oneTimePadEncrypt (chunk key : List Bool) (o : ℕ) :
    (oneTimePadEncrypt chunk key o).length = chunk.length := by
  rw [oneTimePadEncrypt]
  split
  · rfl
  · simp

theorem getD_oneTimePadEncrypt {chunk key : List Bool} (hk : ¬key.isEmpty)
    {o i : ℕ} (hi : i < chunk.length) (x : Bool) :
    (oneTimePadEncrypt chunk key o).getD i x
      = Bool.xor (chunk.getD i false) (key.getD ((o + i) % key.length) false) := by
  rw [oneTimePadEncrypt]
  have hc : ¬chunk.isEmpty := by
    cases chunk
    · simp at hi
    · simp
  rw [if_neg (by simp [hk, hc])]
  exact getD_range_map _ hi x

/-- C2. One-time-pad involution: applying the pad twice with the same key and
offset returns the original data (for any data and key, in particular
non-empty ones), and with an empty key or empty data each application is the
identity. -/
theorem C2_otp_involution (data key : List Bool) (o : ℕ) :
    oneTimePadDecrypt (oneTimePadEncrypt data key o) key o = data ∧
    ((key = [] ∨ data = []) →
      oneTimePadEncrypt data key o = data ∧ oneTimePadDecrypt data key o = data) := by
  constructor
  · by_cases hk : key.isEmpty
    · rw [oneTimePadEncrypt, if_pos (Or.inl hk), oneTimePadDecrypt, if_pos (Or.inl hk)]
    · rw [oneTimePadDecrypt_eq_encrypt]
      refine ext_of_getD false ?_ ?_
      · rw [length_oneTimePadEncrypt, length_oneTimePadEncrypt]
      · intro i hi
        rw [length_oneTimePadEncrypt, length_oneTimePadEncrypt] at hi
        rw [getD_oneTimePadEncrypt hk (by rwa [length_oneTimePadEncrypt]) false]
        rw [getD_oneTimePadEncrypt hk hi false]
        cases data.getD i false <;> cases key.getD ((o + i) % key.length) false <;> rfl
  · intro h
    have h' : key.isEmpty ∨ data.isEmpty := by
      rcases h with h | h <;> [left; right] <;> simp [h]
    constructor
    · rw [oneTimePadEncrypt, if_pos h']
    · rw [oneTimePadDecrypt, if_pos h']

theorem C2_otp_involution_witness :
    oneTimePadDecrypt (oneTimePadEncrypt [true, false, true] [true, false] 1)
      [true, false] 1 = [true, false, true] :=
  (C2_otp_involution [true, false, true] [true, false] 1).1

/-- Two-bits-at-a-time induction on bit strings, matching the chunking loop. -/
theorem twoStepInduction {P : List Bool → Prop} (h0 : P []) (h1 : ∀ b, P [b])
    (h2 : ∀ b1 b2 rest, P rest → P (b1 :: b2 :: rest)) : ∀ s, P s
  | [] => h0
  | [b] => h1 b
  | b1 :: b2 :: rest => h2 b1 b2 rest (twoStepInduction h0 h1 h2 rest)

theorem splitChunks_chunk_length (s : List Bool) :
    ∀ c ∈ splitChunks s, c.length = 2 := by
  induction s using twoStepInduction with
  | h0 => simp [splitChunks]
  | h1 b => simp [splitChunks]
  | h2 b1 b2 rest ih =>
    intro c hc
    rw [splitChunks] at hc
    rcases List.mem_cons.mp hc with hc | hc
    · subst hc; rfl
    · exact ih c hc

theorem splitChunks_length (s : List Bool) :
    (splitChunks s).length = (s.length + 1) / 2 := by
  induction s using twoStepInduction with
  | h0 => rfl
  | h1 b => simp [splitChunks]
  | h2 b1 b2 rest ih =>
    rw [splitChunks, List.length_cons, ih]
    simp only [List.length_cons]
    omega

theorem splitChunks_getD (s : List Bool) :
    ∀ i, i < (splitChunks s).length →
      (splitChunks s).getD i [] = [s.getD (2 * i) false, s.getD (2 * i + 1) false] := by
  induction s using twoStepInduction with
  | h0 => intro i hi; simp [splitChunks] at hi
  | h1 b =>
    intro i hi
    rw [splitChunks] at hi ⊢
    simp only [List.length_cons, List.length_nil] at hi
    interval_cases i
    rfl
  | h2 b1 b2 rest ih =>
    intro i hi
    rw [splitChunks] at hi ⊢
    cases i with
    | zero => rfl
    | succ j =>
      rw [List.getD_cons_succ]
      rw [List.length_cons] at hi
      rw [ih j (by omega)]
      have e1 : 2 * (j + 1) = 2 * j + 1 + 1 := by omega
      rw [e1]
      simp only [List.getD_cons_succ]

theorem splitChunks_flatten_take (s : List Bool) :
    (splitChunks s).flatten.take s.length = s := by
  induction s using twoStepInduction with
  | h0 => rfl
  | h1 b => rfl
  | h2 b1 b2 rest ih =>
    rw [splitChunks, List.flatten_cons]
    simp only [List.length_cons, List.cons_append, List.nil_append, List.take_succ_cons]
    rw [ih]

theorem splitChunks_flatten_even {s : List Bool} (h : s.length % 2 = 0) :
    (splitChunks s).flatten = s := by
  induction s using twoStepInduction with
  | h0 => rfl
  | h1 b => simp at h
  | h2 b1 b2 rest ih =>
    rw [splitChunks, List.flatten_cons]
    simp only [List.length_cons] at h
    rw [List.cons_append, List.cons_append, List.nil_append]
    rw [ih (by omega)]

/-- C7. Chunk split coverage: every chunk produced by the 2-bit split has
length exactly 2, there are ceil(len/2) of them, concatenating the chunks and
trimming to the original length reproduces the input, and when the input
length is even (no padding) the concatenation is exactly the input. -/
theorem C7_chunk_split_coverage (s : List Bool) :
    (∀ c ∈ splitChunks s, c.length = 2) ∧
    (splitChunks s).length = (s.length + 1) / 2 ∧
    (splitChunks s).flatten.take s.length = s ∧
    (s.length % 2 = 0 → (splitChunks s).flatten = s) :=
  ⟨splitChunks_chunk_length s, splitChunks_length s, splitChunks_flatten_take s,
    fun h => splitChunks_flatten_even h⟩

theorem C7_chunk_split_coverage_witness :
    (∀ c ∈ splitChunks [true, false, true], c.length = 2) ∧
    (splitChunks [true, false, true]).length = 2 ∧
    (splitChunks [true, false, true]).flatten.take 3 = [true, false, true] :=
  ⟨(C7_chunk_split_coverage [true, false, true]).1,
    (C7_chunk_split_coverage [true, false, true]).2.1,
    (C7_chunk_split_coverage [true, false, true]).2.2.1⟩

theorem flatten_length_two {α : Type} {L : List (List α)}
    (h : ∀ c ∈ L, c.length = 2) : L.flatten.length = 2 * L.length := by
  induction L with
  | nil => rfl
  | cons c cs ih =>
    rw [List.flatten_cons, List.length_append, h c (List.mem_cons_self c cs),
      ih (fun x hx => h x (List.mem_cons_of_mem c hx))]
    simp only [List.length_cons]
    omega

theorem flatten_getD_two {α : Type} {L : List (List α)}
    (h : ∀ c ∈ L, c.length = 2) (x : α) :
    ∀ m, m < 2 * L.length → L.flatten.getD m x = (L.getD (m / 2) []).getD (m % 2) x := by
  induction L with
  | nil => intro m hm; simp at hm
  | cons c cs ih =>
    intro m hm
    rw [List.flatten_cons]
    have hc : c.length = 2 := h c (List.mem_cons_self c cs)
    by_cases h2 : m < 2
    · rw [List.getD_append _ _ _ _ (by omega)]
      have hdiv : m / 2 = 0 := by omega
      have hmod : m % 2 = m := by omega
      rw [hdiv, hmod, List.getD_cons_zero]
    · rw [List.getD_append_right _ _ _ _ (by omega)]
      rw [hc]
      have hdiv : m / 2 = (m - 2) / 2 + 1 := by omega
      have hmod : m % 2 = (m - 2) % 2 := by omega
      rw [hdiv, hmod, List.getD_cons_succ]
      refine ih (fun y hy => h y (List.mem_cons_of_mem c hy)) (m - 2) ?_
      simp only [List.length_cons] at hm
      omega

theorem encryptChunks_length (chunks : List (List Bool)) (key : List Bool) :
    (encryptChunks chunks key).length = chunks.length := by
  rw [encryptChunks]; simp

theorem encryptChunks_chunk_length {chunks : List (List Bool)} {key : List Bool}
    (h : ∀ c ∈ chunks, c.length = 2) :
    ∀ c ∈ encryptChunks chunks key, c.length = 2 := by
  intro c hc
  rw [encryptChunks] at hc
  rcases List.mem_map.mp hc with ⟨idx, hidx, rfl⟩
  rw [List.mem_range] at hidx
  rw [length_oneTimePadEncrypt, List.getD_eq_getElem _ _ hidx]
  exact h _ (List.getElem_mem hidx)

/-- C10. Chunk-then-encrypt agrees with whole-message encryption: the per-chunk
key offsets `(idx*2) % key.length` make concatenating the encrypted 2-bit
chunks (trimmed to the input length) equal to a single one-time-pad pass over
the whole bit string at offset 0. -/
theorem C10_chunk_encrypt_agreement (d key : List Bool) (hk : key ≠ []) :
    (encryptChunks (splitChunks d) key).flatten.take d.length
      = oneTimePadEncrypt d key 0 := by
  have hkne : ¬key.isEmpty := by simp [hk]
  have hsplit2 := splitChunks_chunk_length d
  have henc2 := @encryptChunks_chunk_length (splitChunks d) key hsplit2
  have hEn : (encryptChunks (splitChunks d) key).length = (d.length + 1) / 2 := by
    rw [encryptChunks_length, splitChunks_length]
  have hflatlen : (encryptChunks (splitChunks d) key).flatten.length = 2 * ((d.length + 1) / 2) := by
    rw [flatten_length_two henc2, hEn]
  refine ext_of_getD false ?_ ?_
  · rw [List.length_take, hflatlen, length_oneTimePadEncrypt]
    omega
  · intro m hm
    have hmtake := hm
    rw [List.length_take] at hm
    have hmd : m < d.length := lt_of_lt_of_le hm (min_le_left _ _)
    have hmflat : m < (encryptChunks (splitChunks d) key).flatten.length :=
      lt_of_lt_of_le hm (min_le_right _ _)
    have hdne : ¬d.isEmpty := by
      cases d
      · simp at hmd
      · simp
    rw [List.getD_eq_getElem _ _ hmtake]
    rw [List.getElem_take]
    rw [← List.getD_eq_getElem _ false hmflat]
    have hm2L : m < 2 * (encryptChunks (splitChunks d) key).length := by
      rw [hflatlen] at hmflat
      rw [hEn]
      omega
    rw [flatten_getD_two henc2 false m hm2L]
    have hm2 : m / 2 < (encryptChunks (splitChunks d) key).length := by
      rw [hEn]
      rw [hEn] at hm2L
      omega
    rw [encryptChunks]
    rw [getD_range_map _ (by rw [encryptChunks_length] at hm2; exact hm2) []]
    rw [splitChunks_getD d (m / 2) (by rw [encryptChunks_length] at hm2; exact hm2)]
    rw [getD_oneTimePadEncrypt hkne (by simp; omega) false]
    rw [getD_oneTimePadEncrypt hkne hmd false]
    have hkey : ((m / 2 * 2) % key.length + m % 2) % key.length = (0 + m) % key.length := by
      rw [Nat.mod_add_mod]
      have : m / 2 * 2 + m % 2 = m := by omega
      rw [this, Nat.zero_add]
    rw [hkey]
    rcases Nat.mod_two_eq_zero_or_one m with hpar | hpar
    · rw [hpar, List.getD_cons_zero]
      have : 2 * (m / 2) = m := by omega
      rw [this]
    · rw [hpar, List.getD_cons_succ, List.getD_cons_zero]
      have : 2 * (m / 2) + 1 = m := by omega
      rw [this]

theorem C10_chunk_encrypt_agreement_witness :
    (encryptChunks (splitChunks [true, false, true]) [true, true]).flatten.take 3
      = oneTimePadEncrypt [true, false, true] [true, true] 0 :=
  C10_chunk_encrypt_agreement [true, false, true] [true, true] (by simp)

/-!
ChunkTransmitter / MessageReconstructor: the transmission-result construction,
the sequential endpoint failover of `processSuperdenseCoding`, and
`reconstructBinaryData`.  The remote channel simulator is modelled as an
oracle assigning each candidate endpoint either a failure message or a
response payload.
-/

/-- Per-chunk transmission status, `'OK'` / `'Failed'` in the code. -/
inductive Status where
  | OK
  | Failed
deriving DecidableEq, Inhabited

/-- One entry of the backend's `corrected_messages` array; `none` fields model
absent (`undefined`/`null`) JSON values, handled by `??` in the code. -/
structure BackendItem where
  corrected_message : Option (List Bool)
  fidelity : Option ℚ
deriving DecidableEq, Inhabited

/-- The JSON body of a successful backend response, as read by the code. -/
structure ResponseData where
  corrected_messages : List BackendItem
  fidelities_shor : List ℚ
  fidelities_noisy : List ℚ
  fidelities_ideal : List ℚ
  fidelity_graph : Option String
deriving DecidableEq, Inhabited

/-- The per-chunk record assembled by `processSuperdenseCoding`. -/
structure TransmissionResult where
  index : ℕ
  originalChunk : List Bool
  encryptedChunk : List Bool
  receivedChunk : List Bool
  status : Status
  fidelity : ℚ
  keyOffset : ℕ
deriving DecidableEq, Inhabited

/-- The `transmissionResults` mapping of `processSuperdenseCoding`:
`originalChunk = chunks[idx] || '00'`, `keyOffset = (idx*2) % key.length`,
`backendItem = correctedMessages[idx] || {}`,
`receivedChunk = backendItem.corrected_message ?? encryptedChunk`,
`fidelity = backendItem.fidelity ?? 0`, `status = fidelity >= 50 ? OK : Failed`. -/
def mkTransmissionResults (chunks encryptedChunks : List (List Bool))
    (correctedMessages : List BackendItem) (keyLen : ℕ) : List TransmissionResult :=
  (List.range encryptedChunks.length).map (fun idx =>
    let encryptedChunk := encryptedChunks.getD idx []
    let originalChunk := if (chunks.getD idx []).isEmpty then [false, false] else chunks.getD idx []
    let keyOffset := (idx * 2) % keyLen
    let backendItem := correctedMessages.getD idx { corrected_message := none, fidelity := none }
    let receivedChunk := backendItem.corrected_message.getD encryptedChunk
    let fidelity := backendItem.fidelity.getD 0
    { index := idx,
      originalChunk := originalChunk,
      encryptedChunk := encryptedChunk,
      receivedChunk := receivedChunk,
      status := if 50 ≤ fidelity then Status.OK else Status.Failed,
      fidelity := fidelity,
      keyOffset := keyOffset })

/-- The value returned by `processSuperdenseCoding` on a successful attempt. -/
structure SdcResult where
  originalChunks : List (List Bool)
  encryptedChunks : List (List Bool)
  transmissionResults : List TransmissionResult
  totalChunks : ℕ
  successfulTransmissions : ℕ
  fidelities_shor : List ℚ
  fidelities_noisy : List ℚ
  fidelities_ideal : List ℚ
  fidelity_graph : Option String
deriving DecidableEq, Inhabited

/-- The successful-response processing of `processSuperdenseCoding`
(lines after `const data = await response.json()`). -/
def processResponse (chunks encryptedChunks : List (List Bool)) (keyLen : ℕ)
    (data : ResponseData) : SdcResult :=
  let transmissionResults :=
    mkTransmissionResults chunks encryptedChunks data.corrected_messages keyLen
  { originalChunks := chunks,
    encryptedChunks := encryptedChunks,
    transmissionResults := transmissionResults,
    totalChunks := chunks.length,
    successfulTransmissions :=
      (transmissionResults.filter (fun r => decide (r.status = Status.OK))).length,
    fidelities_shor := data.fidelities_shor,
    fidelities_noisy := data.fidelities_noisy,
    fidelities_ideal := data.fidelities_ideal,
    fidelity_graph := data.fidelity_graph }

/-- Outcome of one `fetch` attempt against a candidate endpoint: any thrown
error (network failure, timeout abort, non-ok response) with its message, or a
parsed JSON payload. -/
inductive AttemptOutcome where
  | failure (msg : String)
  | success (data : ResponseData)
deriving DecidableEq, Inhabited

/-- The `for (const url of urlsToTry)` loop: try each candidate in order,
remembering the last error; stop at the first success.  Returns the list of
attempted URLs in order and either the successful payload or the final
`lastError`. -/
def attemptLoop : List (String × AttemptOutcome) → Option String →
    List String × Except (Option String) ResponseData
  | [], lastError => ([], Except.error lastError)
  | (url, AttemptOutcome.failure msg) :: rest, _lastError =>
    let r := attemptLoop rest (some msg)
    (url :: r.1, r.2)
  | (url, AttemptOutcome.success data) :: _rest, _lastError =>
    ([url], Except.ok data)

/-- The aggregated error thrown after the loop exhausts every candidate:
`Failed to connect to any error correction service. Tried: <urls>. Last
error: <lastError.message or 'Unknown error'>`. -/
def aggregatedError (urls : List String) (lastError : Option String) : String :=
  "Failed to connect to any error correction service. Tried: "
    ++ String.intercalate ", " urls
    ++ ". Last error: " ++ lastError.getD "Unknown error"

/-- `processSuperdenseCoding` from FullSimulation.jsx: `null` on missing
input, then chunk, encrypt per chunk, and run the endpoint failover loop;
a successful attempt's payload is processed into an `SdcResult`, exhaustion
throws the aggregated error.  The first component of the returned pair is
the trace of attempted endpoints. -/
def processSuperdenseCoding (binaryData qkdKey : List Bool)
    (attempts : List (String × AttemptOutcome)) :
    Option (List String × Except String SdcResult) :=
  if binaryData.isEmpty ∨ qkdKey.isEmpty then none
  else
    let chunks := splitChunks binaryData
    let encryptedChunks := encryptChunks chunks qkdKey
    let outcome := attemptLoop attempts none
    match outcome.2 with
    | Except.ok data =>
      some (outcome.1, Except.ok (processResponse chunks encryptedChunks qkdKey.length data))
    | Except.error lastError =>
      some (outcome.1, Except.error (aggregatedError (attempts.map Prod.fst) lastError))

/-- `reconstructBinaryData` from FullSimulation.jsx: empty string on a missing
key, otherwise per chunk the decryption of `receivedChunk` at the chunk's
`keyOffset` when `status = OK`, else `originalChunk || '00'`, concatenated. -/
def reconstructBinaryData (results : List TransmissionResult) (qkdKey : List Bool) :
    List Bool :=
  if qkdKey.isEmpty then []
  else
    (results.map (fun r =>
      if r.status = Status.OK then oneTimePadDecrypt r.receivedChunk qkdKey r.keyOffset
      else if r.originalChunk.isEmpty then [false, false] else r.originalChunk)).flatten

/-- C4. Fidelity gate and backend-omission defaults: a chunk's status is OK
exactly when its fidelity is at least 50, and when the backend response has no
entry for the chunk's index, `receivedChunk` defaults to the encrypted chunk,
`fidelity` to 0, and the status is therefore Failed. -/
theorem C4_fidelity_gate (chunks encryptedChunks : List (List Bool))
    (correctedMessages : List BackendItem) (keyLen : ℕ) (i : ℕ)
    (hi : i < encryptedChunks.length) :
    (((mkTransmissionResults chunks encryptedChunks correctedMessages keyLen).getD i
        default).status = Status.OK
      ↔ 50 ≤ ((mkTransmissionResults chunks encryptedChunks correctedMessages keyLen).getD i
        default).fidelity) ∧
    (correctedMessages.length ≤ i →
      ((mkTransmissionResults chunks encryptedChunks correctedMessages keyLen).getD i
          default).receivedChunk = encryptedChunks.getD i [] ∧
      ((mkTransmissionResults chunks encryptedChunks correctedMessages keyLen).getD i
          default).fidelity = 0 ∧
      ((mkTransmissionResults chunks encryptedChunks correctedMessages keyLen).getD i
          default).status = Status.Failed) := by
  rw [mkTransmissionResults]
  rw [getD_range_map _ hi default]
  constructor
  · by_cases h50 : 50 ≤ (correctedMessages.getD i
        { corrected_message := none, fidelity := none }).fidelity.getD 0
    · simp [h50]
    · simp [h50]
  · intro hlen
    rw [List.getD_eq_default _ _ hlen]
    refine ⟨rfl, rfl, ?_⟩
    simp only [Option.getD_none]
    rw [if_neg (by norm_num)]

/-- Concrete inputs exercising the fidelity gate: one backend entry at
fidelity 49.999 and a missing entry for the second chunk. -/
def c4Chunks : List (List Bool) := [[true, true], [false, false]]

def c4Encrypted : List (List Bool) := [[false, true], [true, true]]

def c4Backend : List BackendItem :=
  [{ corrected_message := some [true, false], fidelity := some (49999/1000) }]

theorem C4_fidelity_gate_witness :
    (((mkTransmissionResults c4Chunks c4Encrypted c4Backend 2).getD 0 default).status
        = Status.OK
      ↔ 50 ≤ ((mkTransmissionResults c4Chunks c4Encrypted c4Backend 2).getD 0 default).fidelity) ∧
    ((mkTransmissionResults c4Chunks c4Encrypted c4Backend 2).getD 1 default).receivedChunk
        = c4Encrypted.getD 1 [] ∧
    ((mkTransmissionResults c4Chunks c4Encrypted c4Backend 2).getD 1 default).fidelity = 0 ∧
    ((mkTransmissionResults c4Chunks c4Encrypted c4Backend 2).getD 1 default).status
        = Status.Failed := by
  have h1 := (C4_fidelity_gate c4Chunks c4Encrypted c4Backend 2 0 (by norm_num [c4Encrypted])).1
  have h2 := (C4_fidelity_gate c4Chunks c4Encrypted c4Backend 2 1 (by norm_num [c4Encrypted])).2
    (by norm_num [c4Backend])
  exact ⟨h1, h2.1, h2.2.1, h2.2.2⟩

theorem attemptLoop_all_failures_prefix (pre : List (String × AttemptOutcome))
    (h : ∀ p ∈ pre, ∃ m, p.2 = AttemptOutcome.failure m) :
    ∀ (rest : List (String × AttemptOutcome)) (le : Option String),
      ∃ le2, attemptLoop (pre ++ rest) le
        = (pre.map Prod.fst ++ (attemptLoop rest le2).1, (attemptLoop rest le2).2) := by
  induction pre with
  | nil =>
    intro rest le
    exact ⟨le, by simp⟩
  | cons p pre ih =>
    intro rest le
    obtain ⟨url, outcome⟩ := p
    obtain ⟨m, hm⟩ := h (url, outcome) (List.mem_cons_self _ _)
    simp only at hm
    subst hm
    obtain ⟨le2, hle2⟩ := ih (fun q hq => h q (List.mem_cons_of_mem _ hq)) rest (some m)
    refine ⟨le2, ?_⟩
    rw [List.cons_append, attemptLoop, hle2]
    simp

/-- C5. Endpoint failover: candidates are tried strictly in list order, once
each; the first successful candidate's processed result is returned and no
later candidate is attempted; only when every candidate fails does the call
fail, with one aggregated error naming all attempted endpoints and carrying
the last underlying error's message. -/
theorem C5_endpoint_failover (binaryData qkdKey : List Bool)
    (hd : binaryData ≠ []) (hk : qkdKey ≠ []) :
    (∀ (pre post : List (String × AttemptOutcome)) (u : String) (d : ResponseData),
      (∀ p ∈ pre, ∃ m, p.2 = AttemptOutcome.failure m) →
      processSuperdenseCoding binaryData qkdKey (pre ++ (u, AttemptOutcome.success d) :: post)
        = some (pre.map Prod.fst ++ [u],
            Except.ok (processResponse (splitChunks binaryData)
              (encryptChunks (splitChunks binaryData) qkdKey) qkdKey.length d))) ∧
    (∀ (pre : List (String × AttemptOutcome)) (u : String) (m : String),
      (∀ p ∈ pre, ∃ m2, p.2 = AttemptOutcome.failure m2) →
      processSuperdenseCoding binaryData qkdKey (pre ++ [(u, AttemptOutcome.failure m)])
        = some (pre.map Prod.fst ++ [u],
            Except.error (aggregatedError (pre.map Prod.fst ++ [u]) (some m)))) := by
  have hguard : ¬(binaryData.isEmpty ∨ qkdKey.isEmpty) := by simp [hd, hk]
  constructor
  · intro pre post u d hpre
    obtain ⟨le2, hle2⟩ := attemptLoop_all_failures_prefix pre hpre
      ((u, AttemptOutcome.success d) :: post) none
    rw [processSuperdenseCoding, if_neg hguard]
    rw [hle2]
    rfl
  · intro pre u m hpre
    obtain ⟨le2, hle2⟩ := attemptLoop_all_failures_prefix pre hpre
      [(u, AttemptOutcome.failure m)] none
    rw [processSuperdenseCoding, if_neg hguard]
    rw [hle2]
    have htail : attemptLoop [(u, AttemptOutcome.failure m)] le2
        = ([u], Except.error (some m)) := by
      rw [attemptLoop]
      rfl
    rw [htail]
    simp

theorem C5_endpoint_failover_witness :
    processSuperdenseCoding [true] [true]
        [("primary", AttemptOutcome.failure "timeout"),
         ("fallback", AttemptOutcome.success default)]
      = some (["primary", "fallback"],
          Except.ok (processResponse (splitChunks [true])
            (encryptChunks (splitChunks [true]) [true]) (List.length [true]) default)) := by
  have h := (C5_endpoint_failover [true] [true] (by simp) (by simp)).1
    [("primary", AttemptOutcome.failure "timeout")] [] "fallback" default
    (by
      intro p hp
      rw [List.mem_singleton] at hp
      subst hp
      exact ⟨"timeout", rfl⟩)
  simpa using h

theorem list_eq_pair_of_length_two {α : Type} {l : List α} (h : l.length = 2) (x : α) :
    l = [l.getD 0 x, l.getD 1 x] := by
  cases l with
  | nil => simp at h
  | cons a t =>
    cases t with
    | nil => simp at h
    | cons b t2 =>
      cases t2 with
      | nil => rfl
      | cons c t3 => simp only [List.length_cons] at h; omega

theorem take_two_of_drop {α : Type} {l : List α} {a : ℕ} (h : a + 1 < l.length) (x : α) :
    (l.drop a).take 2 = [l.getD a x, l.getD (a + 1) x] := by
  have hlen : 2 ≤ (l.drop a).length := by
    rw [List.length_drop]
    omega
  have h2 : ((l.drop a).take 2).length = 2 := by
    rw [List.length_take]
    omega
  rw [list_eq_pair_of_length_two h2 x]
  have e0 : ((l.drop a).take 2).getD 0 x = l.getD a x := by
    rw [List.getD_eq_getElem _ _ (by omega), List.getElem_take,
      ← List.getD_eq_getElem _ x (by rw [List.length_drop]; omega)]
    rw [List.getD_eq_getElem _ _ (by rw [List.length_drop]; omega), List.getElem_drop,
      ← List.getD_eq_getElem _ x (by omega)]
    norm_num
  have e1 : ((l.drop a).take 2).getD 1 x = l.getD (a + 1) x := by
    rw [List.getD_eq_getElem _ _ (by omega), List.getElem_take,
      ← List.getD_eq_getElem _ x (by rw [List.length_drop]; omega)]
    rw [List.getD_eq_getElem _ _ (by rw [List.length_drop]; omega), List.getElem_drop,
      ← List.getD_eq_getElem _ x (by omega)]
  rw [e0, e1]

/-- C3. Reconstruction fallback: the reconstructed bit string is the
concatenation, in index order, of the decryption of `receivedChunk` at the
chunk's `keyOffset` for OK chunks and of the untouched pre-transmission
`originalChunk` for Failed chunks; in particular, with 10 chunks of width 2
where exactly chunk 3 failed, positions 6-7 of the reconstruction are that
chunk's `originalChunk`. -/
theorem C3_reconstruction_fallback (results : List TransmissionResult) (qkdKey : List Bool)
    (hk : qkdKey ≠ []) (ho : ∀ r ∈ results, r.originalChunk ≠ []) :
    reconstructBinaryData results qkdKey
      = (results.map (fun r =>
          if r.status = Status.OK then oneTimePadDecrypt r.receivedChunk qkdKey r.keyOffset
          else r.originalChunk)).flatten ∧
    (results.length = 10 →
      (∀ r ∈ results, r.receivedChunk.length = 2 ∧ r.originalChunk.length = 2) →
      (∀ i, i < 10 → ((results.getD i default).status = Status.Failed ↔ i = 3)) →
      ((reconstructBinaryData results qkdKey).drop 6).take 2
        = (results.getD 3 default).originalChunk) := by
  have hkne : ¬qkdKey.isEmpty := by simp [hk]
  have hmain : reconstructBinaryData results qkdKey
      = (results.map (fun r =>
          if r.status = Status.OK then oneTimePadDecrypt r.receivedChunk qkdKey r.keyOffset
          else r.originalChunk)).flatten := by
    rw [reconstructBinaryData, if_neg hkne]
    congr 1
    refine List.map_congr_left (fun r hr => ?_)
    by_cases hst : r.status = Status.OK
    · rw [if_pos hst, if_pos hst]
    · rw [if_neg hst, if_neg hst, if_neg (by simp [ho r hr])]
  refine ⟨hmain, ?_⟩
  intro hlen hwidth hst
  have h3lt : 3 < results.length := by omega
  have hr3mem : results.getD 3 default ∈ results := by
    rw [List.getD_eq_getElem _ _ h3lt]
    exact List.getElem_mem h3lt
  have hr3fail : (results.getD 3 default).status = Status.Failed :=
    (hst 3 (by omega)).mpr rfl
  have hr3orig : (results.getD 3 default).originalChunk.length = 2 := (hwidth _ hr3mem).2
  set f : TransmissionResult → List Bool := fun r =>
    if r.status = Status.OK then oneTimePadDecrypt r.receivedChunk qkdKey r.keyOffset
    else r.originalChunk with hf
  have hm2 : ∀ c ∈ results.map f, c.length = 2 := by
    intro c hc
    rcases List.mem_map.mp hc with ⟨r, hr, rfl⟩
    rw [hf]
    by_cases hs : r.status = Status.OK
    · simp only [if_pos hs]
      rw [oneTimePadDecrypt_eq_encrypt, length_oneTimePadEncrypt]
      exact (hwidth r hr).1
    · simp only [if_neg hs]
      exact (hwidth r hr).2
  have hmlen : (results.map f).length = 10 := by rw [List.length_map, hlen]
  have hflat : (results.map f).flatten.length = 20 := by
    rw [flatten_length_two hm2, hmlen]
  have hfr3 : f (results.getD 3 default) = (results.getD 3 default).originalChunk := by
    simp only [hf]
    rw [if_neg (by rw [hr3fail]; simp)]
  have h6 : (results.map f).flatten.getD 6 false
      = (results.getD 3 default).originalChunk.getD 0 false := by
    rw [flatten_getD_two hm2 false 6 (by rw [hmlen]; norm_num)]
    rw [show (6 : ℕ) / 2 = 3 by norm_num, show (6 : ℕ) % 2 = 0 by norm_num]
    rw [getD_map_getD f (by omega) [] default, hfr3]
  have h7 : (results.map f).flatten.getD 7 false
      = (results.getD 3 default).originalChunk.getD 1 false := by
    rw [flatten_getD_two hm2 false 7 (by rw [hmlen]; norm_num)]
    rw [show (7 : ℕ) / 2 = 3 by norm_num, show (7 : ℕ) % 2 = 1 by norm_num]
    rw [getD_map_getD f (by omega) [] default, hfr3]
  rw [hmain]
  rw [take_two_of_drop (by rw [hflat]; norm_num) false]
  rw [show (6 : ℕ) + 1 = 7 by norm_num]
  rw [h6, h7]
  exact (list_eq_pair_of_length_two hr3orig false).symm

/-- A successful 2-bit transmission record used by the C3 scenario. -/
def c3OkResult (i : ℕ) : TransmissionResult :=
  { index := i, originalChunk := [true, true], encryptedChunk := [false, false],
    receivedChunk := [false, true], status := Status.OK, fidelity := 90,
    keyOffset := (i * 2) % 2 }

/-- The failed chunk 3 of the C3 scenario. -/
def c3FailResult : TransmissionResult :=
  { index := 3, originalChunk := [true, false], encryptedChunk := [false, false],
    receivedChunk := [false, true], status := Status.Failed, fidelity := 10,
    keyOffset := 0 }

/-- Ten transmission results with exactly chunk 3 failed. -/
def c3Results : List TransmissionResult :=
  (List.range 10).map (fun i => if i = 3 then c3FailResult else c3OkResult i)

theorem C3_reconstruction_fallback_witness :
    ((reconstructBinaryData c3Results [true, true]).drop 6).take 2
      = (c3Results.getD 3 default).originalChunk :=
  (C3_reconstruction_fallback c3Results [true, true] (by simp) (by decide)).2
    (by decide) (by decide) (by decide)

/-!
JobStreamConsumer: the `Receiver` component's EventSource message handler.
The decoded payload carried by the terminal `done` event is opaque to the
handler, so its type is a parameter `ρ`.
-/

/-- One entry of the `progressLogs` state: info/success/error entries carry no
`job_id` (it is `undefined` in the code), progress entries carry theirs. -/
structure LogEntry where
  job_id : Option String
  type : String
  message : String
deriving DecidableEq, Inhabited

/-- The React state of `Receiver` that the stream handler mutates, plus the
connection flag (`es.close()` sets it to false). -/
structure ReceiverState (ρ : Type) where
  decodedResult : Option ρ
  progressLogs : List LogEntry
  loading : Bool
  error : Option String
  progress : ℚ
  connectionOpen : Bool
deriving DecidableEq

/-- The four event shapes handled by `es.onmessage`. -/
inductive StreamEvent (ρ : Type) where
  | start (total_jobs : ℕ)
  | progress (job_id : String) (current_job : ℕ) (total_jobs : ℕ)
      (status : String) (message : String)
  | done (result : ρ)
  | error (message : String)
deriving DecidableEq

/-- The message text of a progress log entry:
`[cur/tot] Job <id.slice(0,10)>...: <message>`. -/
def progressLogMessage (job_id : String) (cur tot : ℕ) (message : String) : String :=
  "[" ++ toString cur ++ "/" ++ toString tot ++ "] Job "
    ++ job_id.take 10 ++ "...: " ++ message

/-- The log entry built for a progress event; `data.status || 'progress'`
falls back when the status field is absent (empty). -/
def mkProgressLog (job_id : String) (cur tot : ℕ) (status message : String) : LogEntry :=
  { job_id := some job_id,
    type := if status = "" then "progress" else status,
    message := progressLogMessage job_id cur tot message }

/-- The upsert performed on a progress event: `findIndex` on `job_id`, replace
in place when found, append otherwise. -/
def upsertProgressLog (logs : List LogEntry) (job_id : String) (newLog : LogEntry) :
    List LogEntry :=
  match logs.findIdx? (fun l => l.job_id == some job_id) with
  | some i => logs.set i newLog
  | none => logs ++ [newLog]

/-- The `es.onmessage` handler of `Receiver.jsx`, one event at a time. -/
def handleMessage {ρ : Type} (s : ReceiverState ρ) : StreamEvent ρ → ReceiverState ρ
  | StreamEvent.start t =>
    { s with progressLogs := s.progressLogs ++
        [{ job_id := none, type := "info",
           message := "Found " ++ toString t ++ " jobs to process." }] }
  | StreamEvent.progress job_id cur tot status message =>
    { s with
        progress := (cur : ℚ) / (tot : ℚ) * 100,
        progressLogs := upsertProgressLog s.progressLogs job_id
          (mkProgressLog job_id cur tot status message) }
  | StreamEvent.done result =>
    { s with
        decodedResult := some result,
        progress := 100,
        progressLogs := s.progressLogs ++
          [{ job_id := none, type := "success",
             message := "All jobs processed successfully!" }],
        connectionOpen := false,
        loading := false }
  | StreamEvent.error message =>
    { s with
        error := some message,
        progressLogs := s.progressLogs ++
          [{ job_id := none, type := "error", message := "ERROR: " ++ message }],
        connectionOpen := false,
        loading := false }

/-- The state right after `fetchDecodedJobs` resets everything and `es.onopen`
logs the connection-opened line. -/
def initialReceiverState (ρ : Type) : ReceiverState ρ :=
  { decodedResult := none,
    progressLogs := [{ job_id := none, type := "info",
                       message := "Connection opened. Searching for pending jobs..." }],
    loading := true,
    error := none,
    progress := 0,
    connectionOpen := true }

/-- Folding a whole event sequence through the handler. -/
def processEvents {ρ : Type} (s : ReceiverState ρ) (events : List (StreamEvent ρ)) :
    ReceiverState ρ :=
  events.foldl handleMessage s

/-- Number of log entries recorded for a given job id. -/
def jobEntryCount (logs : List LogEntry) (id : String) : ℕ :=
  (logs.filter (fun l => l.job_id == some id)).length

theorem findIdx?_succ {α : Type} (p : α → Bool) :
    ∀ (xs : List α) (i : ℕ),
      List.findIdx? p xs (i + 1) = (List.findIdx? p xs i).map (· + 1) := by
  intro xs
  induction xs with
  | nil => intro i; simp [List.findIdx?_nil]
  | cons x xs ih =>
    intro i
    rw [List.findIdx?_cons, List.findIdx?_cons]
    by_cases hp : p x = true
    · simp [hp]
    · simp only [hp, if_false]
      exact ih (i + 1)

theorem findIdx?_eq_none_of_forall {α : Type} {p : α → Bool} :
    ∀ (l : List α) (i : ℕ), (∀ x ∈ l, ¬p x = true) → List.findIdx? p l i = none := by
  intro l
  induction l with
  | nil => intro i _; simp [List.findIdx?_nil]
  | cons x xs ih =>
    intro i h
    rw [List.findIdx?_cons]
    rw [if_neg (h x (List.mem_cons_self x xs))]
    exact ih (i + 1) (fun y hy => h y (List.mem_cons_of_mem x hy))

theorem upsertProgressLog_nil (job_id : String) (newLog : LogEntry) :
    upsertProgressLog [] job_id newLog = [newLog] := rfl

theorem upsertProgressLog_cons_pos {l : LogEntry} {job_id : String}
    (h : l.job_id = some job_id) (logs : List LogEntry) (newLog : LogEntry) :
    upsertProgressLog (l :: logs) job_id newLog = newLog :: logs := by
  rw [upsertProgressLog, List.findIdx?_cons]
  rw [if_pos (by simp [h])]
  show (l :: logs).set 0 newLog = newLog :: logs
  rw [List.set_cons_zero]

theorem upsertProgressLog_cons_neg {l : LogEntry} {job_id : String}
    (h : l.job_id ≠ some job_id) (logs : List LogEntry) (newLog : LogEntry) :
    upsertProgressLog (l :: logs) job_id newLog
      = l :: upsertProgressLog logs job_id newLog := by
  rw [upsertProgressLog, upsertProgressLog, List.findIdx?_cons]
  rw [if_neg (by simp [h])]
  rw [findIdx?_succ]
  cases hfi : List.findIdx? (fun e => e.job_id == some job_id) logs 0 with
  | none => simp
  | some j => simp [List.set_cons_succ]

theorem jobEntryCount_nil (id : String) : jobEntryCount [] id = 0 := rfl

theorem jobEntryCount_cons (l : LogEntry) (logs : List LogEntry) (id : String) :
    jobEntryCount (l :: logs) id
      = (if l.job_id = some id then 1 else 0) + jobEntryCount logs id := by
  rw [jobEntryCount, jobEntryCount, List.filter_cons]
  by_cases h : l.job_id = some id
  · simp only [h]
    simp
    omega
  · simp [h]

theorem jobEntryCount_append (L1 L2 : List LogEntry) (id : String) :
    jobEntryCount (L1 ++ L2) id = jobEntryCount L1 id + jobEntryCount L2 id := by
  rw [jobEntryCount, jobEntryCount, jobEntryCount, List.filter_append, List.length_append]

theorem jobEntryCount_upsert_ne {newLog : LogEntry} {job_id id : String}
    (hnew : newLog.job_id = some job_id) (hne : id ≠ job_id) :
    ∀ logs : List LogEntry,
      jobEntryCount (upsertProgressLog logs job_id newLog) id = jobEntryCount logs id := by
  intro logs
  induction logs with
  | nil =>
    rw [upsertProgressLog_nil, jobEntryCount_cons, jobEntryCount_nil]
    rw [if_neg (by rw [hnew]; simp [Ne.symm hne])]
  | cons l logs ih =>
    by_cases hl : l.job_id = some job_id
    · rw [upsertProgressLog_cons_pos hl, jobEntryCount_cons, jobEntryCount_cons]
      rw [if_neg (by rw [hnew]; simp [Ne.symm hne])]
      rw [if_neg (by rw [hl]; simp [Ne.symm hne])]
    · rw [upsertProgressLog_cons_neg hl, jobEntryCount_cons, jobEntryCount_cons, ih]

theorem jobEntryCount_upsert_self {newLog : LogEntry} {job_id : String}
    (hnew : newLog.job_id = some job_id) :
    ∀ logs : List LogEntry,
      jobEntryCount (upsertProgressLog logs job_id newLog)
        job_id ≤ max 1 (jobEntryCount logs job_id) := by
  intro logs
  induction logs with
  | nil =>
    rw [upsertProgressLog_nil, jobEntryCount_cons, jobEntryCount_nil]
    rw [if_pos hnew]
    simp
  | cons l logs ih =>
    by_cases hl : l.job_id = some job_id
    · rw [upsertProgressLog_cons_pos hl, jobEntryCount_cons, jobEntryCount_cons]
      rw [if_pos hnew, if_pos hl]
      omega
    · rw [upsertProgressLog_cons_neg hl, jobEntryCount_cons, jobEntryCount_cons]
      rw [if_neg hl]
      omega

theorem upsert_at_most_one {newLog : LogEntry} {job_id : String}
    (hnew : newLog.job_id = some job_id) {logs : List LogEntry}
    (h : ∀ id0, jobEntryCount logs id0 ≤ 1) :
    ∀ id, jobEntryCount (upsertProgressLog logs job_id newLog) id ≤ 1 := by
  intro id
  by_cases hid : id = job_id
  · subst hid
    have := jobEntryCount_upsert_self hnew logs
    have := h id
    omega
  · rw [jobEntryCount_upsert_ne hnew hid]
    exact h id

theorem handleMessage_at_most_one {ρ : Type} (s : ReceiverState ρ) (e : StreamEvent ρ)
    (h : ∀ id, jobEntryCount s.progressLogs id ≤ 1) :
    ∀ id, jobEntryCount (handleMessage s e).progressLogs id ≤ 1 := by
  intro id
  cases e with
  | start t =>
    rw [handleMessage]
    rw [jobEntryCount_append, jobEntryCount_cons, jobEntryCount_nil]
    have := h id
    simp only [if_neg (by simp : ¬(none : Option String) = some id)]
    omega
  | progress job_id cur tot status message =>
    rw [handleMessage]
    exact upsert_at_most_one rfl h id
  | done r =>
    rw [handleMessage]
    rw [jobEntryCount_append, jobEntryCount_cons, jobEntryCount_nil]
    have := h id
    simp only [if_neg (by simp : ¬(none : Option String) = some id)]
    omega
  | error msg =>
    rw [handleMessage]
    rw [jobEntryCount_append, jobEntryCount_cons, jobEntryCount_nil]
    have := h id
    simp only [if_neg (by simp : ¬(none : Option String) = some id)]
    omega

theorem processEvents_at_most_one {ρ : Type} :
    ∀ (events : List (StreamEvent ρ)) (s : ReceiverState ρ),
      (∀ id, jobEntryCount s.progressLogs id ≤ 1) →
      ∀ id, jobEntryCount (processEvents s events).progressLogs id ≤ 1 := by
  intro events
  induction events with
  | nil => intro s h; exact h
  | cons e events ih =>
    intro s h
    exact ih (handleMessage s e) (handleMessage_at_most_one s e h)

/-- C9. Job upsert invariant: starting from the freshly opened stream state,
any event sequence leaves at most one log entry per job id (a progress event
for a seen id replaces that entry in place, an unseen id appends); each
progress event recomputes the overall progress as `current/total * 100`; and a
done event stores the final result, sets progress to 100 and closes the
connection. -/
theorem C9_job_stream_upsert (ρ : Type) :
    (∀ (events : List (StreamEvent ρ)) (id : String),
      jobEntryCount (processEvents (initialReceiverState ρ) events).progressLogs id ≤ 1) ∧
    (∀ (s : ReceiverState ρ) (job_id : String) (cur tot : ℕ) (status message : String),
      (handleMessage s (StreamEvent.progress job_id cur tot status message)).progress
          = (cur : ℚ) / (tot : ℚ) * 100 ∧
      ((∀ l ∈ s.progressLogs, l.job_id ≠ some job_id) →
        (handleMessage s (StreamEvent.progress job_id cur tot status message)).progressLogs
          = s.progressLogs ++ [mkProgressLog job_id cur tot status message]) ∧
      (∀ i, s.progressLogs.findIdx? (fun l => l.job_id == some job_id) = some i →
        (handleMessage s (StreamEvent.progress job_id cur tot status message)).progressLogs
          = s.progressLogs.set i (mkProgressLog job_id cur tot status message))) ∧
    (∀ (s : ReceiverState ρ) (r : ρ),
      (handleMessage s (StreamEvent.done r)).decodedResult = some r ∧
      (handleMessage s (StreamEvent.done r)).progress = 100 ∧
      (handleMessage s (StreamEvent.done r)).connectionOpen = false) := by
  refine ⟨?_, ?_, ?_⟩
  · intro events id
    refine processEvents_at_most_one events (initialReceiverState ρ) ?_ id
    intro id0
    rw [initialReceiverState]
    simp only
    rw [jobEntryCount_cons, jobEntryCount_nil]
    rw [if_neg (by simp)]
    norm_num
  · intro s job_id cur tot status message
    refine ⟨rfl, ?_, ?_⟩
    · intro hnone
      rw [handleMessage]
      simp only
      rw [upsertProgressLog]
      rw [findIdx?_eq_none_of_forall _ 0 (by

        intro l hl
        simp [hnone l hl])]
    · intro i hi
      rw [handleMessage]
      simp only
      rw [upsertProgressLog, hi]
  · intro s r
    exact ⟨rfl, rfl, rfl⟩

/-- The event sequence of the spec's job-stream scenario. -/
def c9Events : List (StreamEvent String) :=
  [StreamEvent.start 2,
   StreamEvent.progress "a" 1 2 "progress" "m1",
   StreamEvent.progress "a" 2 2 "success" "m2",
   StreamEvent.done "decoded"]

theorem C9_job_stream_upsert_witness :
    jobEntryCount (processEvents (initialReceiverState String) c9Events).progressLogs "a" ≤ 1 ∧
    (processEvents (initialReceiverState String) c9Events).decodedResult = some "decoded" ∧
    (processEvents (initialReceiverState String) c9Events).progress = 100 ∧
    (processEvents (initialReceiverState String) c9Events).connectionOpen = false := by
  refine ⟨(C9_job_stream_upsert String).1 c9Events "a", ?_⟩
  have h := (C9_job_stream_upsert String).2.2
    (processEvents (initialReceiverState String)
      [StreamEvent.start 2,
       StreamEvent.progress "a" 1 2 "progress" "m1",
       StreamEvent.progress "a" 2 2 "success" "m2"]) "decoded"
  exact h
